import Mathlib

/-!
Verification development for the scholarship-announcement extraction pipeline
(text normalizer, section locator, section field parsers, record assembler).
Python strings are modelled as lists of characters; each Python string
operation used by the code (split, strip, join, lower, substring test,
replace) is given an executable Lean counterpart with the same semantics,
and each pipeline function is translated from the source.
-/

namespace NLPA

abbrev Str := List Char

/-- Python whitespace characters recognised by str.strip and the regex class \s
(for the character set that occurs in these documents). -/
def isWs (c : Char) : Bool :=
  c = ' ' || c = '\t' || c = '\n' || c = '\r' || c = '\x0b' || c = '\x0c'

/-- Python str.lower / re.IGNORECASE case folding, covering ASCII letters and
the Latin-1 uppercase letters (Á, É, Í, Ó, Ú, Ñ, Ü, ...) that occur in the
tables and patterns of the source. -/
def pyLower (c : Char) : Char :=
  if (65 ≤ c.toNat ∧ c.toNat ≤ 90) ∨
     (192 ≤ c.toNat ∧ c.toNat ≤ 222 ∧ c.toNat ≠ 215) then
    Char.ofNat (c.toNat + 32)
  else c

def lowerStr (s : Str) : Str := s.map pyLower

/-- Python str.strip(): drop whitespace from both ends. -/
def pyStrip (s : Str) : Str :=
  ((s.dropWhile isWs).reverse.dropWhile isWs).reverse

/-- Helper for the splitting functions: prepend a character to the first
token of a token list. -/
def consTok (c : Char) : List Str → List Str
  | [] => [[c]]
  | t :: ts => (c :: t) :: ts

/-- Python text.split for the one-character separator, specialised to a
given character. -/
def splitOn1 (sep : Char) : Str → List Str
  | [] => [[]]
  | c :: r => if c = sep then [] :: splitOn1 sep r else consTok c (splitOn1 sep r)

/-- Lines of a text: Python text.split of a newline. -/
def splitNl (s : Str) : List Str := splitOn1 '\n' s

/-- Python text.split of two newlines (the paragraph separator): scan left to
right, cutting at each non-overlapping occurrence of the separator. -/
def splitNl2 : Str → List Str
  | [] => [[]]
  | '\n' :: '\n' :: r2 => [] :: splitNl2 r2
  | c :: r => consTok c (splitNl2 r)

/-- Python sep.join(pieces). -/
def pyJoin (sep : Str) : List Str → Str
  | [] => []
  | [x] => x
  | x :: y :: ys => x ++ sep ++ pyJoin sep (y :: ys)

/-- Python substring test: needle in haystack. -/
def pyContains (n : Str) : Str → Bool
  | [] => n.isPrefixOf []
  | c :: r => n.isPrefixOf (c :: r) || pyContains n r

/-! ## Text normalizer (extract_text.py) -/

/-- The administrative boilerplate marker substrings of
remove_signature_lines. -/
def markers : List Str :=
  ["CSV : GEN-", "DIRECCIÓN DE VALIDACIÓN", "FIRMANTE(", "FECHA :",
   "NOTAS :"].map String.toList

/-- A line is kept when it contains none of the marker substrings. -/
def keepLine (l : Str) : Bool := ! markers.any (fun m => pyContains m l)

/-- extract_text.remove_signature_lines: drop every line containing a
boilerplate marker and rejoin the rest with newlines. -/
def remove_signature_lines (t : Str) : Str :=
  pyJoin ['\n'] ((splitNl t).filter keepLine)

/-- The loop body of extract_text.clean_paragraph: walk the lines keeping an
accumulated result; strip each line, skip blank lines, drop a trailing
hyphen, and append with a single separating space once the result is
non-empty (the two branches of the punctuation test in the source are
identical, so they are translated as one). -/
def cleanGo : List Str → Str → Str
  | [], result => result
  | line :: rest, result =>
    let l1 := pyStrip line
    if l1 = [] then cleanGo rest result
    else
      let l2 := if l1.getLast? = some '-' then l1.dropLast else l1
      if result = [] then cleanGo rest l2 else cleanGo rest (result ++ ' ' :: l2)

/-- extract_text.clean_paragraph. -/
def clean_paragraph (p : Str) : Str := cleanGo (splitNl p) []

/-- The paragraphs the normalizer cleans: split the de-boilerplated text on
blank lines and keep the ones with non-whitespace content. -/
def paragraphsOf (t : Str) : List Str :=
  (splitNl2 (remove_signature_lines t)).filter (fun p => ! (pyStrip p).isEmpty)

def cleanedParagraphs (t : Str) : List Str :=
  (paragraphsOf t).map clean_paragraph

/-- The per-page normalization of extract_text.extract_text_from_pdf:
boilerplate-line removal, paragraph splitting, line joining, and final
blank-line rejoin with an outer strip. -/
def normalize (t : Str) : Str :=
  pyStrip (pyJoin ['\n', '\n'] (cleanedParagraphs t))

/-! ## Section locator (locate_sections.py) -/

/-- The SECTIONS table: each section key with its heading synonyms, in
declaration order. -/
def SECTIONS : List (Str × List Str) :=
  [("requisitos".toList, ["REQUISITOS", "REQUISITOS DE LOS SOLICITANTES"].map String.toList),
   ("cuantias".toList, ["CUANTÍAS", "CUANTÍA", "IMPORTE", "artículo"].map String.toList),
   ("plazo".toList, ["PLAZO", "PLAZO DE SOLICITUD", "PLAZO DE PRESENTACIÓN"].map String.toList),
   ("solicitud".toList, ["SOLICITUD", "FORMA DE PRESENTACIÓN", "CÓMO SOLICITAR"].map String.toList),
   ("excelencia".toList, ["EXCELENCIA", "EXCELENCIA ACADÉMICA", "CUANTÍA FIJA LIGADA A LA EXCELENCIA"].map String.toList)]

def sectionKeys : List Str := SECTIONS.map Prod.fst

/-- The alternatives of the alternation pattern, in pattern order: all
synonyms of all sections. -/
def allTitles : List Str := (SECTIONS.map Prod.snd).flatten

/-- Case-insensitive literal match at the current position: consume the
pattern, returning the rest of the text. -/
def ciDrop : Str → Str → Option Str
  | [], s => some s
  | _ :: _, [] => none
  | p :: ps, c :: cs => if pyLower c = pyLower p then ciDrop ps cs else none

/-- Try the alternatives of an alternation of literals at one position, in
pattern order (the regex engine takes the first alternative that matches,
not the longest); return the consumed length on success. -/
def altAt (alts : List Str) (s : Str) : Option Nat :=
  match alts with
  | [] => none
  | a :: rest => if (ciDrop a s).isSome then some a.length else altAt rest s

/-- One heading match of re.finditer: a start offset together with the
matched substring of the text. -/
structure HeadMatch where
  start : Nat
  matched : Str
deriving DecidableEq, Repr

/-- The scan loop of re.finditer for an alternation of literals with
IGNORECASE: try each position left to right, emit the first alternative
that matches, and continue after the matched text. The fuel argument is a
bound on the number of scan steps; it decreases as the position advances,
and text.length + 1 steps always suffice. -/
def finditerAux (alts : List Str) : Nat → Nat → Str → List HeadMatch
  | 0, _, _ => []
  | _ + 1, _, [] => []
  | fuel + 1, i, s@(_ :: rest) =>
    match altAt alts s with
    | some n => { start := i, matched := s.take n } :: finditerAux alts fuel (i + n) (s.drop n)
    | none => finditerAux alts fuel (i + 1) rest

/-- All heading matches of the section-locator pattern in the text. -/
def findHeadings (t : Str) : List HeadMatch :=
  finditerAux allTitles (t.length + 1) 0 t

/-- Pair every match with the start of the next match, or with the text
length for the last one: the end of its content span. -/
def withEnds : List HeadMatch → Nat → List (HeadMatch × Nat)
  | [], _ => []
  | [m], len => [(m, len)]
  | m :: m2 :: rest, len => (m, m2.start) :: withEnds (m2 :: rest) len

/-- Python text[a:b]. -/
def slice (t : Str) (a b : Nat) : Str := (t.drop a).take (b - a)

/-- The inner synonym loop: does some synonym of the list occur,
case-insensitively, inside the matched heading text? -/
def synHit (syns : List Str) (heading : Str) : Bool :=
  syns.any (fun syn => pyContains (lowerStr syn) (lowerStr heading))

/-- The section-ownership loop of locate_sections: walk SECTIONS in
declaration order and stop at the first section one of whose synonyms
occurs in the matched heading. -/
def sectionGo (heading : Str) : List (Str × List Str) → Option Str
  | [] => none
  | (k, syns) :: rest => if synHit syns heading then some k else sectionGo heading rest

def sectionForHeading (heading : Str) : Option Str := sectionGo heading SECTIONS

/-- One entry of the found_sections mapping: the internal heading label and
the accumulated content. -/
structure SectionEntry where
  heading : Str
  content : Str
deriving DecidableEq, Repr

abbrev Sections := List (Str × SectionEntry)

/-- The initial found_sections mapping: every section key present, with
empty content. -/
def initSections : Sections :=
  SECTIONS.map (fun kv => (kv.1, { heading := kv.1, content := [] }))

/-- Rewrite the content stored under one key of the mapping. -/
def updateContent (k : Str) (f : Str → Str) : Sections → Sections
  | [] => []
  | (k', e) :: rest =>
    if k' = k then (k', { e with content := f e.content }) :: rest
    else (k', e) :: updateContent k f rest

/-- Content stored under a key (empty for an absent key). -/
def contentOf (k : Str) : Sections → Str
  | [] => []
  | (k', e) :: rest => if k' = k then e.content else contentOf k rest

/-- The per-match update of locate_sections: strip the span
text[match.start : nextStart] and append it, preceded by a blank line, to
the owning section's content. -/
def locateStep (t : Str) (acc : Sections) (m : HeadMatch × Nat) : Sections :=
  match sectionForHeading m.1.matched with
  | some k =>
      updateContent k (fun c => c ++ '\n' :: '\n' :: pyStrip (slice t m.1.start m.2)) acc
  | none => acc

/-- The accumulation phase of locate_sections, before the cuantias
currency post-filter. -/
def locateAccum (t : Str) : Sections :=
  (withEnds (findHeadings t) t.length).foldl (locateStep t) initSections

/-- locate_sections: accumulate the spans, then discard the cuantias content
when it contains neither the currency symbol nor the word euros. -/
def locate_sections (t : Str) : Sections :=
  let fs := locateAccum t
  let contentLower := lowerStr (contentOf ("cuantias".toList) fs)
  if pyContains ("€".toList) contentLower = false ∧
     pyContains ("euros".toList) contentLower = false then
    updateContent ("cuantias".toList) (fun _ => []) fs
  else fs

/-! ## Field parsers (parse_sections.py)

The concrete regular expressions of the source are translated into
backtracking scanners with Python re semantics: leftmost match position
wins, alternatives are tried in pattern order, lazy repetitions extend one
step at a time after trying the continuation, greedy repetitions consume a
maximal run and back off one character at a time when the continuation
fails. -/

/-- re.search position loop: try the matcher at every suffix, left to
right (including the empty suffix). -/
def findFrom (k : Str → Option α) : Str → Option α
  | [] => k []
  | s@(_ :: r) =>
    match k s with
    | some x => some x
    | none => findFrom k r

/-- Lazy gap .*? without DOTALL: try the continuation at the current
position first, then extend the gap by one character, never consuming a
newline. -/
def lazyNoNl (k : Str → Option α) : Str → Option α
  | [] => k []
  | s@(c :: r) =>
    match k s with
    | some x => some x
    | none => if c = '\n' then none else lazyNoNl k r

/-- Lazy gap .*? under DOTALL: the same, but a newline may be consumed. -/
def lazyAny (k : Str → Option α) : Str → Option α
  | [] => k []
  | s@(_ :: r) =>
    match k s with
    | some x => some x
    | none => lazyAny k r

/-- The character class [\d.,] of the amount patterns. -/
def isNumChar (c : Char) : Bool := c.isDigit || c = '.' || c = ','

/-- Greedy tail of an amount: consume [\d.,]* maximally, backing off one
character at a time; at each stop, hand the consumed amount text and the
rest to the continuation. -/
def numTail (k : Str → Str → Option α) (acc : Str) : Str → Option α
  | [] => k acc []
  | s@(c :: r) =>
    if isNumChar c then
      match numTail k (acc ++ [c]) r with
      | some x => some x
      | none => k acc s
    else k acc s

/-- The amount group (\d[\d.,]+): one digit, then at least one further
[\d.,] character, greedily extended. -/
def parseAmount (k : Str → Str → Option α) : Str → Option α
  | c :: c2 :: r =>
    if c.isDigit ∧ isNumChar c2 then numTail k [c, c2] r else none
  | _ => none

/-- The unit tail \s*(euros|€): maximal whitespace, then the first
alternative that matches; return the rest. -/
def unitTail (s : Str) : Option Str :=
  let s1 := s.dropWhile isWs
  match ciDrop ("euros".toList) s1 with
  | some r => some r
  | none => ciDrop ("€".toList) s1

/-- re.search of "cuantía fija ligada a la renta.*?(\d[\d\.,]+)\s*(euros|€)"
with IGNORECASE, returning group 1. -/
def searchRenta (t : Str) : Option Str :=
  findFrom (fun s =>
    (ciDrop ("cuantía fija ligada a la renta".toList) s).bind
      (lazyNoNl (parseAmount (fun g rest => (unitTail rest).map (fun _ => g))))) t

/-- re.search of "cuantía fija ligada a la residencia.*?(\d[\d\.,]+)\s*(euros|€)"
with IGNORECASE, returning group 1. -/
def searchResidencia (t : Str) : Option Str :=
  findFrom (fun s =>
    (ciDrop ("cuantía fija ligada a la residencia".toList) s).bind
      (lazyNoNl (parseAmount (fun g rest => (unitTail rest).map (fun _ => g))))) t

/-- The literal-and-whitespace chain "esta\s*cuantía\s*será\s*de\s*" of the
combined basic-scholarship pattern. -/
def estaCuantiaDe (s : Str) : Option Str :=
  (ciDrop ("esta".toList) s).bind (fun a =>
    (ciDrop ("cuantía".toList) (a.dropWhile isWs)).bind (fun b =>
      (ciDrop ("será".toList) (b.dropWhile isWs)).bind (fun c =>
        (ciDrop ("de".toList) (c.dropWhile isWs)).map (fun d =>
          d.dropWhile isWs))))

/-- re.search of "Beca básica:\s*(\d[\d\.,]+)\s*(?:euros|€).*?esta\s*cuantía
\s*será\s*de\s*(\d[\d\.,]+)\s*(?:euros|€)" with IGNORECASE and DOTALL,
returning groups 1 and 2. -/
def searchBasicaBlock (t : Str) : Option (Str × Str) :=
  findFrom (fun s =>
    (ciDrop ("Beca básica:".toList) s).bind (fun s1 =>
      parseAmount (fun g1 rest =>
        (unitTail rest).bind
          (lazyAny (fun s2 =>
            (estaCuantiaDe s2).bind
              (parseAmount (fun g2 rest2 =>
                (unitTail rest2).map (fun _ => (g1, g2)))))))
        (s1.dropWhile isWs))) t

/-- re.search of "Beca básica:\s*(\d[\d\.,]+)\s*(?:euros|€)" with
IGNORECASE, returning group 1. -/
def searchSoloBasica (t : Str) : Option Str :=
  findFrom (fun s =>
    (ciDrop ("Beca básica:".toList) s).bind (fun s1 =>
      parseAmount (fun g rest => (unitTail rest).map (fun _ => g))
        (s1.dropWhile isWs))) t

/-- re.search of "cuantía variable.*?(?:importe mínimo.*?)(\d[\d\.,]+)\s*
(euros|€)" with IGNORECASE and DOTALL, returning group 1. -/
def searchVariable (t : Str) : Option Str :=
  findFrom (fun s =>
    (ciDrop ("cuantía variable".toList) s).bind
      (lazyAny (fun s1 =>
        (ciDrop ("importe mínimo".toList) s1).bind
          (lazyAny (parseAmount (fun g rest => (unitTail rest).map (fun _ => g))))))) t

/-- re.search of "beca de matrícula.*?(cubrirá|cubrir)(.*?)(\d[\d\.,]*\s*
(€|euros))?" with IGNORECASE and DOTALL: the two trailing groups match the
empty string, so the search succeeds exactly when the anchor phrase is
followed, anywhere later in the text, by one of the verb alternatives. -/
def searchMatricula (t : Str) : Option Unit :=
  findFrom (fun s =>
    (ciDrop ("beca de matrícula".toList) s).bind
      (lazyAny (fun s1 =>
        match ciDrop ("cubrirá".toList) s1 with
        | some _ => some ()
        | none => (ciDrop ("cubrir".toList) s1).map (fun _ => ())))) t

/-- Case-insensitive literal match that also returns the consumed text
slice (the captured characters in their original case). -/
def ciDropCap (pat s : Str) : Option (Str × Str) :=
  (ciDrop pat s).map (fun r => (s.take pat.length, r))

/-- Greedy character-class run with capture: consume a maximal run of
class characters, backing off one character at a time, handing the
consumed run and the rest to the continuation. -/
def classTail (cls : Char → Bool) (k : Str → Str → Option α) (acc : Str) : Str → Option α
  | [] => k acc []
  | s@(c :: r) =>
    if cls c then
      match classTail cls k (acc ++ [c]) r with
      | some x => some x
      | none => k acc s
    else k acc s

/-- The class [/\w\s] of the engineering/architecture branch: slash, word
characters (ASCII letters, digits, underscore, accented Latin letters) or
whitespace. -/
def isWordSlashWs (c : Char) : Bool :=
  c = '/' || c.isAlphanum || c = '_' || isWs c ||
  (192 ≤ c.toNat && c.toNat ≤ 255 && c.toNat ≠ 215 && c.toNat ≠ 247)

/-- The percentage group (\d{1,3})\%: up to three digits, greedily, with
the literal percent sign; returns the digit text and the rest. -/
def pct3 : Str → Option (Str × Str)
  | d1 :: d2 :: d3 :: '%' :: r =>
    if d1.isDigit && d2.isDigit && d3.isDigit then some ([d1, d2, d3], r) else none
  | _ => none

def pct2 : Str → Option (Str × Str)
  | d1 :: d2 :: '%' :: r =>
    if d1.isDigit && d2.isDigit then some ([d1, d2], r) else none
  | _ => none

def pct1 : Str → Option (Str × Str)
  | d1 :: '%' :: r => if d1.isDigit then some ([d1], r) else none
  | _ => none

def parsePct (s : Str) : Option (Str × Str) :=
  match pct3 s with
  | some x => some x
  | none => match pct2 s with
    | some x => some x
    | none => pct1 s

/-- The tail .*?(\d{1,3})\% after a branch-name capture (no DOTALL). -/
def ramaTail (g1 : Str) : Str → Option ((Str × Str) × Str) :=
  lazyNoNl (fun s2 => (parsePct s2).map (fun p => ((g1, p.1), p.2)))

/-- One attempted match of the field-of-study pattern at the current
position: the five branch alternatives in pattern order, each continued by
the lazy gap and the percentage group; returns ((group1, group2), rest
after the full match). -/
def ramaAt (s : Str) : Option ((Str × Str) × Str) :=
  match (ciDropCap ("Artes y Humanidades".toList) s).bind (fun p => ramaTail p.1 p.2) with
  | some x => some x
  | none =>
  match (ciDropCap ("Ciencias Sociales y Jurídicas".toList) s).bind (fun p => ramaTail p.1 p.2) with
  | some x => some x
  | none =>
  match (ciDropCap ("Ciencias de la Salud".toList) s).bind (fun p => ramaTail p.1 p.2) with
  | some x => some x
  | none =>
  match (ciDropCap ("Ingeniería o Arquitectura".toList) s).bind (fun p =>
          classTail isWordSlashWs (fun run rest =>
            (ciDropCap ("técnicas".toList) rest).bind (fun q =>
              ramaTail (p.1 ++ run ++ q.1) q.2)) [] p.2) with
  | some x => some x
  | none => (ciDropCap ("Ciencias".toList) s).bind (fun p => ramaTail p.1 p.2)

/-- patron_ramas.findall: non-overlapping matches, scanning left to right
and resuming after each match. -/
def ramasAux : Nat → Str → List (Str × Str)
  | 0, _ => []
  | _ + 1, [] => []
  | fuel + 1, s@(_ :: r) =>
    match ramaAt s with
    | some (g, rest) => g :: ramasAux fuel rest
    | none => ramasAux fuel r

def findRamas (t : Str) : List (Str × Str) := ramasAux (t.length + 1) t

/-- Python int() on a digit string. -/
def natOfDigits (s : Str) : Nat := s.foldl (fun n c => 10 * n + (c.toNat - 48)) 0

/-- Python dict assignment d[k] = v: overwrite in place, or append a new
key at the end. -/
def dictInsert [DecidableEq α] (k : α) (v : β) : List (α × β) → List (α × β)
  | [] => [(k, v)]
  | (k', v') :: r => if k' = k then (k, v) :: r else (k', v') :: dictInsert k v r

/-- The classification loop over findall results: keyword tests on the
lowercased branch name decide the canonical key; unrecognised names are
dropped. -/
def ramaStep (d : List (Str × Nat)) (g : Str × Str) : List (Str × Nat) :=
  let porc := natOfDigits g.2
  let rl := lowerStr g.1
  if pyContains ("artes y humanidades".toList) rl then
    dictInsert ("artes_humanidades".toList) porc d
  else if pyContains ("sociales y jurídicas".toList) rl then
    dictInsert ("ciencias_sociales_juridicas".toList) porc d
  else if pyContains ("salud".toList) rl then
    dictInsert ("ciencias_de_la_salud".toList) porc d
  else if pyContains ("ingeniería".toList) rl || pyContains ("arquitectura".toList) rl then
    dictInsert ("ingenieria_arquitectura_tecnicas".toList) porc d
  else if pyContains ("ciencias".toList) rl then
    dictInsert ("ciencias".toList) porc d
  else d

def porcentajesPorRama (t : Str) : List (Str × Nat) :=
  (findRamas t).foldl ramaStep []

/-- The parse_cuantias result dict. -/
structure CuantiasParsed where
  beca_matricula : Option Str
  fija_renta : Option Str
  fija_residencia : Option Str
  beca_basica_normal : Option Str
  beca_basica_fp_basico : Option Str
  variable_minima : Option Str
  porcentajes_por_rama : List (Str × Nat)
deriving DecidableEq, Repr

/-- Python str.replace of the thousands-separator period by nothing. -/
def stripDots (g : Str) : Str := g.filter (fun c => ¬ c = '.')

/-- parse_sections.parse_cuantias. -/
def parse_cuantias (t : Str) : CuantiasParsed :=
  let basica : Option Str × Option Str :=
    match searchBasicaBlock t with
    | some (g1, g2) => (some g1, some g2)
    | none =>
      match searchSoloBasica t with
      | some g => (some g, none)
      | none => (none, none)
  { beca_matricula :=
      if (searchMatricula t).isSome then
        some ("Gratuidad de los créditos de primera matrícula".toList)
      else none,
    fija_renta := (searchRenta t).map stripDots,
    fija_residencia := (searchResidencia t).map stripDots,
    beca_basica_normal := basica.1,
    beca_basica_fp_basico := basica.2,
    variable_minima := searchVariable t,
    porcentajes_por_rama := porcentajesPorRama t }

/-! ### parse_requisitos -/

/-- The bullet marker \d{1,2}\.\s*º\) continued after the digits: the
period, greedy whitespace, the ordinal sign and the closing parenthesis;
returns the matched marker text and the rest. -/
def bulletCore (ds : Str) (s : Str) : Option (Str × Str) :=
  match s with
  | '.' :: r =>
    let ws := r.takeWhile isWs
    (match r.dropWhile isWs with
     | 'º' :: ')' :: r3 => some (ds ++ '.' :: ws ++ ['º', ')'], r3)
     | _ => none)
  | _ => none

/-- The bullet marker at the current position: one or two digits, greedily,
then the marker tail. -/
def bulletAt : Str → Option (Str × Str)
  | [] => none
  | [d1] => if d1.isDigit then bulletCore [d1] [] else none
  | d1 :: d2 :: r =>
    if d1.isDigit then
      if d2.isDigit then
        match bulletCore [d1, d2] r with
        | some x => some x
        | none => bulletCore [d1] (d2 :: r)
      else bulletCore [d1] (d2 :: r)
    else none

/-- The lazy bullet content (?s)(.*?) up to the lookahead
(?=(\d{1,2}\.\s*º\))|$ under MULTILINE: stop at the first position that
starts another bullet marker, ends a line, or ends the text; return the
consumed content and the rest. -/
def contentScan : Str → Str × Str
  | [] => ([], [])
  | s@(c :: r) =>
    if c = '\n' then ([], s)
    else if (bulletAt s).isSome then ([], s)
    else
      let p := contentScan r
      (c :: p.1, p.2)

/-- pattern_bullets.finditer: scan for bullet markers, take the lazy
content of each, and resume at the zero-width lookahead position. -/
def reqScanAux : Nat → Str → List (Str × Str)
  | 0, _ => []
  | _ + 1, [] => []
  | fuel + 1, s@(_ :: r) =>
    match bulletAt s with
    | some (b, rest) =>
      let p := contentScan rest
      (b, p.1) :: reqScanAux fuel p.2
    | none => reqScanAux fuel r

/-- Python text.splitlines (for the newline character). -/
def pySplitlines (s : Str) : List Str :=
  if s = [] then []
  else if s.getLast? = some '\n' then (splitNl s).dropLast
  else splitNl s

/-- The first-colon split re.match(r'^(.*?)\:\s*(.*)$', line): the text
before the first colon and the text after it. -/
def splitColon : Str → Option (Str × Str)
  | [] => none
  | c :: r =>
    if c = ':' then some ([], r)
    else (splitColon r).map (fun p => (c :: p.1, p.2))

/-- Python str.replace(old, new), non-overlapping, left to right. -/
def pyReplaceAux (old new : Str) : Nat → Str → Str
  | 0, s => s
  | _ + 1, [] => []
  | fuel + 1, s@(c :: r) =>
    if old.isPrefixOf s ∧ old ≠ [] then
      new ++ pyReplaceAux old new fuel (s.drop old.length)
    else c :: pyReplaceAux old new fuel r

def pyReplace (old new s : Str) : Str := pyReplaceAux old new s.length s

def capIII : Str := "CAPÍTULO III".toList

/-- The per-bullet body of parse_requisitos: strip bullet and content,
split the first line at its first colon into title and remainder, append
the further lines, remove the chapter marker, and store the pair (or the
whole cleaned content under the bullet marker when there is no colon). -/
def processBullet (d : List (Str × Str)) (bc : Str × Str) : List (Str × Str) :=
  let bullet := pyStrip bc.1
  let content := pyStrip bc.2
  match pySplitlines content with
  | [] => dictInsert bullet [] d
  | l0 :: rest =>
    let firstLine := pyStrip l0
    match splitColon firstLine with
    | some (before, after) =>
      let title := pyStrip before
      let remainder0 := pyStrip (after.dropWhile isWs)
      let remainder1 :=
        if rest.isEmpty then remainder0 else remainder0 ++ '\n' :: pyJoin ['\n'] rest
      dictInsert title (pyStrip (pyReplace capIII [] remainder1)) d
    | none => dictInsert bullet (pyStrip (pyReplace capIII [] content)) d

/-- The parse_requisitos result dict. -/
structure RequisitosParsed where
  matriculacion_minima : List (Str × Str)
deriving DecidableEq, Repr

/-- parse_sections.parse_requisitos. -/
def parse_requisitos (t : Str) : RequisitosParsed :=
  { matriculacion_minima := (reqScanAux (t.length + 1) t).foldl processBullet [] }

/-! ## Record assembler (parse_sections.main) -/

/-- The requisitos part of the assembled record; the branch-percentage
mapping is an optional key (none models an absent key). -/
structure RequisitosFinal where
  matriculacion_minima : List (Str × Str)
  porcentajes_por_rama : Option (List (Str × Nat))
deriving DecidableEq, Repr

/-- The cuantias part of the assembled record; the branch-percentage
mapping is an optional key (none models an absent key). -/
structure CuantiasFinal where
  beca_matricula : Option Str
  fija_renta : Option Str
  fija_residencia : Option Str
  beca_basica_normal : Option Str
  beca_basica_fp_basico : Option Str
  variable_minima : Option Str
  porcentajes_por_rama : Option (List (Str × Nat))
deriving DecidableEq, Repr

structure AssembledRecord where
  requisitos : RequisitosFinal
  cuantias : CuantiasFinal
deriving DecidableEq, Repr

/-- The assembly step of parse_sections.main restricted to the two
sections it moves data between: parse both sections, pop
porcentajes_por_rama from the cuantias result unconditionally, and insert
it under requisitos only when the popped mapping is truthy (non-empty). -/
def assemble (reqText cuanText : Str) : AssembledRecord :=
  let rp := parse_requisitos reqText
  let cp := parse_cuantias cuanText
  let porRama := cp.porcentajes_por_rama
  { requisitos :=
      { matriculacion_minima := rp.matriculacion_minima,
        porcentajes_por_rama := if porRama.isEmpty then none else some porRama },
    cuantias :=
      { beca_matricula := cp.beca_matricula,
        fija_renta := cp.fija_renta,
        fija_residencia := cp.fija_residencia,
        beca_basica_normal := cp.beca_basica_normal,
        beca_basica_fp_basico := cp.beca_basica_fp_basico,
        variable_minima := cp.variable_minima,
        porcentajes_por_rama := none } }

/-! ## Basic lemmas about the string primitives -/

theorem isPrefixOf_iff_exists (n s : Str) : n.isPrefixOf s = true ↔ ∃ r, s = n ++ r := by
  induction n generalizing s with
  | nil => simp [List.isPrefixOf]
  | cons a as ih =>
    cases s with
    | nil =>
      simp [List.isPrefixOf]
    | cons b bs =>
      simp only [List.isPrefixOf, Bool.and_eq_true, beq_iff_eq, ih, List.cons_append]
      constructor
      · rintro ⟨hab, r, hr⟩
        exact ⟨r, by rw [hab, hr]⟩
      · rintro ⟨r, hr⟩
        obtain ⟨h1, h2⟩ := List.cons.injEq .. ▸ hr
        exact ⟨h1.symm, r, h2⟩

/-- The substring property, stated as the existence of a left and right
context (the specification's notion of a case-insensitive substring test
is this property applied to lowercased strings). -/
def SubstrP (n h : Str) : Prop := ∃ a b, h = a ++ n ++ b

theorem pyContains_iff (n h : Str) : pyContains n h = true ↔ SubstrP n h := by
  induction h with
  | nil =>
    simp only [pyContains, SubstrP, isPrefixOf_iff_exists]
    constructor
    · rintro ⟨r, hr⟩
      exact ⟨[], r, by simpa using hr⟩
    · rintro ⟨a, b, hab⟩
      have := hab.symm
      rw [List.append_assoc] at this
      obtain ⟨ha, hnb⟩ := List.append_eq_nil.mp this
      obtain ⟨hn, hb⟩ := List.append_eq_nil.mp hnb
      exact ⟨b, by simp [hn, hb]⟩
  | cons c r ih =>
    simp only [pyContains, Bool.or_eq_true, isPrefixOf_iff_exists, ih, SubstrP]
    constructor
    · rintro (⟨x, hx⟩ | ⟨a, b, hab⟩)
      · exact ⟨[], x, by simpa using hx⟩
      · exact ⟨c :: a, b, by simp [hab]⟩
    · rintro ⟨a, b, hab⟩
      cases a with
      | nil => exact Or.inl ⟨b, by simpa using hab⟩
      | cons a0 as =>
        right
        obtain ⟨-, h2⟩ := List.cons.injEq .. ▸ hab
        exact ⟨as, b, h2⟩

instance (n h : Str) : Decidable (SubstrP n h) :=
  decidable_of_iff (pyContains n h = true) (pyContains_iff n h)

/-! ## C8: parse_requisitos round trip -/

/-- C8: applying parse_requisitos to the synthetic bullet-list input
yields the mapping from each bullet title to its remainder after the first
colon. -/
theorem C8_parse_requisitos_roundtrip :
    (parse_requisitos ("1.º) Título: contenido\n2.º) Otro: cosa".toList)).matriculacion_minima
      = [("Título".toList, "contenido".toList), ("Otro".toList, "cosa".toList)] := by
  decide

/-! ## C9 and C10: parse_cuantias amount normalization -/

/-- C9: whenever the income-linked fixed-amount pattern matches with
amount group "1.600", parse_cuantias stores fija_renta as the digit string
"1600" with the thousands-separator period stripped. -/
theorem C9_fija_renta_normalized (t : Str)
    (h : searchRenta t = some ("1.600".toList)) :
    (parse_cuantias t).fija_renta = some ("1600".toList) := by
  show (searchRenta t).map stripDots = _
  rw [h]
  decide

theorem C9_fija_renta_witness :
    searchRenta ("cuantía fija ligada a la renta de 1.600 euros".toList)
      = some ("1.600".toList) ∧
    (parse_cuantias ("cuantía fija ligada a la renta de 1.600 euros".toList)).fija_renta
      = some ("1600".toList) :=
  ⟨by decide, C9_fija_renta_normalized _ (by decide)⟩

/-- C10: parse_cuantias normalizes amounts inconsistently: the matched
amount groups of the renta and residencia patterns are stored with their
periods removed (stripDots only removes periods, keeping commas), while
the matched amount groups of the basic-scholarship and minimum-variable
patterns are stored exactly as matched. -/
theorem C10_amount_normalization (t : Str) :
    (parse_cuantias t).fija_renta = (searchRenta t).map stripDots ∧
    (parse_cuantias t).fija_residencia = (searchResidencia t).map stripDots ∧
    (parse_cuantias t).beca_basica_normal =
      (match searchBasicaBlock t with
       | some p => some p.1
       | none => searchSoloBasica t) ∧
    (parse_cuantias t).beca_basica_fp_basico = (searchBasicaBlock t).map Prod.snd ∧
    (parse_cuantias t).variable_minima = searchVariable t := by
  refine ⟨rfl, rfl, ?_, ?_, rfl⟩ <;>
  · unfold parse_cuantias
    rcases hb : searchBasicaBlock t with _ | ⟨g1, g2⟩
    · rcases hs : searchSoloBasica t with _ | g <;> simp [hb, hs]
    · simp [hb]

/-! ## C2: the porcentajes_por_rama move in assembly -/

/-- C2 counterexample: on empty section texts the branch-percentage
mapping is empty, and after assembly the field appears under neither
requisitos nor cuantias: it is dropped as an omitted key. -/
theorem C2_counterexample :
    (assemble [] []).requisitos.porcentajes_por_rama = none ∧
    (assemble [] []).cuantias.porcentajes_por_rama = none := by
  decide

/-- C2 (amended): assembly always removes porcentajes_por_rama from the
cuantias result; it inserts it under requisitos exactly when the parsed
mapping is non-empty, and omits the key entirely when it is empty; the
other fields pass through unchanged. -/
theorem C2_porcentajes_move (r c : Str) :
    (assemble r c).cuantias.porcentajes_por_rama = none ∧
    (assemble r c).requisitos.porcentajes_por_rama =
      (if (parse_cuantias c).porcentajes_por_rama.isEmpty then none
       else some ((parse_cuantias c).porcentajes_por_rama)) ∧
    (assemble r c).requisitos.matriculacion_minima
      = (parse_requisitos r).matriculacion_minima ∧
    (assemble r c).cuantias.fija_renta = (parse_cuantias c).fija_renta ∧
    (assemble r c).cuantias.beca_basica_normal = (parse_cuantias c).beca_basica_normal :=
  ⟨rfl, rfl, rfl, rfl, rfl⟩

/-! ## Lemmas about the found_sections mapping -/

theorem map_fst_updateContent (k : Str) (f : Str → Str) (l : Sections) :
    (updateContent k f l).map Prod.fst = l.map Prod.fst := by
  induction l with
  | nil => rfl
  | cons e r ih =>
    obtain ⟨k', en⟩ := e
    simp only [updateContent]
    split <;> simp [ih]

theorem contentOf_update_self (k : Str) (f : Str → Str) (l : Sections)
    (h : k ∈ l.map Prod.fst) :
    contentOf k (updateContent k f l) = f (contentOf k l) := by
  induction l with
  | nil =>
    rw [List.map_nil] at h
    exact absurd h (List.not_mem_nil k)
  | cons e r ih =>
    obtain ⟨k', en⟩ := e
    by_cases hk : k' = k
    · simp [updateContent, contentOf, hk]
    · have h' : k = k' ∨ k ∈ r.map Prod.fst := by
        rw [List.map_cons] at h
        exact List.mem_cons.mp h
      have hr : k ∈ r.map Prod.fst := by
        rcases h' with h1 | h1
        · exact absurd h1.symm hk
        · exact h1
      simp [updateContent, contentOf, hk, ih hr]

theorem contentOf_update_other (k k' : Str) (hkk : k ≠ k') (f : Str → Str) (l : Sections) :
    contentOf k (updateContent k' f l) = contentOf k l := by
  induction l with
  | nil => rfl
  | cons e r ih =>
    obtain ⟨k'', en⟩ := e
    simp only [updateContent]
    by_cases h2 : k'' = k'
    · have hne : ¬ (k'' = k) := fun h => hkk (by rw [← h, h2])
      rw [if_pos h2]
      simp only [contentOf]
      rw [if_neg hne, if_neg hne]
    · rw [if_neg h2]
      simp only [contentOf]
      by_cases h3 : k'' = k
      · rw [if_pos h3, if_pos h3]
      · rw [if_neg h3, if_neg h3]
        exact ih

theorem contentOf_update_nil (k : Str) (l : Sections) :
    contentOf k (updateContent k (fun _ => []) l) = [] := by
  induction l with
  | nil => rfl
  | cons e r ih =>
    obtain ⟨k', en⟩ := e
    by_cases hk : k' = k <;> simp [updateContent, contentOf, hk, ih]

theorem contentOf_all_nil (k : Str) (l : Sections) (h : ∀ e ∈ l, e.2.content = []) :
    contentOf k l = [] := by
  induction l with
  | nil => rfl
  | cons e r ih =>
    obtain ⟨k', en⟩ := e
    by_cases hk : k' = k
    · simpa [contentOf, hk] using h (k', en) (by simp)
    · simp only [contentOf, if_neg hk]
      exact ih (fun e he => h e (by simp [he]))

theorem contentOf_init (k : Str) : contentOf k initSections = [] :=
  contentOf_all_nil k _ (by decide)

theorem sectionGo_mem (h : Str) (tbl : List (Str × List Str)) (k : Str)
    (hk : sectionGo h tbl = some k) : k ∈ tbl.map Prod.fst := by
  induction tbl with
  | nil => simp [sectionGo] at hk
  | cons kv rest ih =>
    obtain ⟨k', syns⟩ := kv
    by_cases hhit : synHit syns h
    · simp only [sectionGo, if_pos hhit, Option.some.injEq] at hk
      simp [hk]
    · simp only [sectionGo, if_neg hhit] at hk
      simp [ih hk]

theorem foldl_locateStep_keys (t : Str) (ms : List (HeadMatch × Nat)) (acc : Sections) :
    ((ms.foldl (locateStep t) acc).map Prod.fst) = acc.map Prod.fst := by
  induction ms generalizing acc with
  | nil => rfl
  | cons m ms ih =>
    rw [List.foldl_cons, ih]
    unfold locateStep
    rcases sectionForHeading m.1.matched with _ | k'
    · rfl
    · exact map_fst_updateContent ..

theorem locateAccum_keys (t : Str) : (locateAccum t).map Prod.fst = sectionKeys := by
  unfold locateAccum
  rw [foldl_locateStep_keys]
  decide

/-- The accumulated content of a section is the initial content followed by
one blank-line-prefixed stripped span per match owned by the section, in
match order. -/
theorem foldl_locateStep_content (t : Str) (ms : List (HeadMatch × Nat)) (acc : Sections)
    (hacc : acc.map Prod.fst = sectionKeys) (k : Str) (hk : k ∈ sectionKeys) :
    contentOf k (ms.foldl (locateStep t) acc)
      = contentOf k acc ++
        (ms.filterMap (fun m =>
          if sectionForHeading m.1.matched = some k then
            some ('\n' :: '\n' :: pyStrip (slice t m.1.start m.2))
          else none)).flatten := by
  induction ms generalizing acc with
  | nil => simp
  | cons m ms ih =>
    rw [List.foldl_cons]
    rcases hsec : sectionForHeading m.1.matched with _ | k'
    · have hstep : locateStep t acc m = acc := by simp [locateStep, hsec]
      rw [hstep, ih acc hacc]
      simp [hsec]
    · have hstep : locateStep t acc m
          = updateContent k' (fun c => c ++ '\n' :: '\n' :: pyStrip (slice t m.1.start m.2)) acc := by
        simp [locateStep, hsec]
      have hkeys : (updateContent k'
          (fun c => c ++ '\n' :: '\n' :: pyStrip (slice t m.1.start m.2)) acc).map Prod.fst
            = sectionKeys := by
        rw [map_fst_updateContent]; exact hacc
      rw [hstep, ih _ hkeys]
      by_cases hkk : k' = k
      · subst hkk
        have hmem : k' ∈ acc.map Prod.fst := by rw [hacc]; exact hk
        rw [contentOf_update_self _ _ _ hmem]
        simp [hsec, List.append_assoc]
      · rw [contentOf_update_other _ _ (fun h => hkk h.symm)]
        have : ¬ ((some k' : Option Str) = some k) := by simp [hkk]
        simp [hsec, this]

/-! ## C1: fixed key set and empty-on-no-match -/

theorem locate_sections_eq (t : Str) :
    locate_sections t =
      (if pyContains ("€".toList) (lowerStr (contentOf ("cuantias".toList) (locateAccum t))) = false ∧
          pyContains ("euros".toList) (lowerStr (contentOf ("cuantias".toList) (locateAccum t))) = false
       then updateContent ("cuantias".toList) (fun _ => []) (locateAccum t)
       else locateAccum t) := rfl

/-- C1: the mapping returned by locate_sections always has exactly the five
configured section keys in order, and when the heading pattern has no
match in the text every content is empty. -/
theorem C1_section_keys_invariant (t : Str) :
    (locate_sections t).map Prod.fst = sectionKeys ∧
    (findHeadings t = [] → ∀ k, contentOf k (locate_sections t) = []) := by
  constructor
  · rw [locate_sections_eq]
    split
    · rw [map_fst_updateContent]; exact locateAccum_keys t
    · exact locateAccum_keys t
  · intro h k
    have hacc : locateAccum t = initSections := by
      unfold locateAccum
      rw [h]
      rfl
    rw [locate_sections_eq, hacc, if_pos (by decide)]
    by_cases hk : k = "cuantias".toList
    · subst hk; exact contentOf_update_nil ..
    · rw [contentOf_update_other _ _ hk]
      exact contentOf_init k

theorem C1_witness :
    findHeadings ("hola".toList) = [] ∧
    contentOf ("requisitos".toList) (locate_sections ("hola".toList)) = [] :=
  ⟨by decide, (C1_section_keys_invariant ("hola".toList)).2 (by decide) _⟩

/-! ## C3: span assignment and content accumulation -/

/-- The blank-line-prefixed stripped spans assigned to a section, in match
order. -/
def assignedChunks (t k : Str) : List Str :=
  (withEnds (findHeadings t) t.length).filterMap (fun m =>
    if sectionForHeading m.1.matched = some k then
      some ('\n' :: '\n' :: pyStrip (slice t m.1.start m.2))
    else none)

/-- The content the claim describes, following the specification's words:
the raw span texts of the section's matches joined with one blank-line
separator between consecutive spans (no leading separator, no stripping). -/
def specContentOfSection (t k : Str) : Str :=
  pyJoin ['\n', '\n'] ((withEnds (findHeadings t) t.length).filterMap (fun m =>
    if sectionForHeading m.1.matched = some k then some (slice t m.1.start m.2)
    else none))

/-- C3 counterexample: on "REQUISITOS abc " the requisitos content produced
by locate_sections has a leading blank-line separator and is stripped, so
it differs from the claim's between-separators concatenation of raw spans. -/
theorem C3_counterexample :
    contentOf ("requisitos".toList) (locate_sections ("REQUISITOS abc ".toList))
      ≠ specContentOfSection ("REQUISITOS abc ".toList) ("requisitos".toList) := by
  decide

/-- C3 (amended): matches are taken in left-to-right order, the span of
match i runs from its start to the next match's start (or end of text),
and the accumulated content of every section is the concatenation, in
match order, of its assigned spans, each stripped and each preceded by a
blank-line separator (the cuantias post-filter of locate_sections is
applied afterwards). -/
theorem C3_section_content_spans (t k : Str) (hk : k ∈ sectionKeys) :
    contentOf k (locateAccum t) = (assignedChunks t k).flatten := by
  unfold locateAccum assignedChunks
  rw [foldl_locateStep_content t _ initSections (by decide) k hk, contentOf_init,
    List.nil_append]

theorem C3_witness :
    ("requisitos".toList ∈ sectionKeys) ∧
    contentOf ("requisitos".toList) (locateAccum ("REQUISITOS abc ".toList))
      = (assignedChunks ("REQUISITOS abc ".toList) ("requisitos".toList)).flatten :=
  ⟨by decide, C3_section_content_spans _ _ (by decide)⟩

/-! ## C4: declaration-order ownership -/

/-- The ownership rule stated the specification's way: the first section,
in declared order, one of whose synonyms is contained case-insensitively
in the matched heading. -/
def specOwner (heading : Str) : Option Str :=
  (SECTIONS.find? (fun kv =>
    decide (∃ syn ∈ kv.2, SubstrP (lowerStr syn) (lowerStr heading)))).map Prod.fst

theorem synHit_iff (syns : List Str) (h : Str) :
    synHit syns h = true ↔ ∃ syn ∈ syns, SubstrP (lowerStr syn) (lowerStr h) := by
  simp [synHit, List.any_eq_true, pyContains_iff]

theorem sectionGo_eq_find (h : Str) (tbl : List (Str × List Str)) :
    sectionGo h tbl
      = (tbl.find? (fun kv =>
          decide (∃ syn ∈ kv.2, SubstrP (lowerStr syn) (lowerStr h)))).map Prod.fst := by
  induction tbl with
  | nil => rfl
  | cons kv rest ih =>
    obtain ⟨k, syns⟩ := kv
    by_cases hhit : synHit syns h = true
    · have hdec : ∃ syn ∈ syns, SubstrP (lowerStr syn) (lowerStr h) :=
        (synHit_iff syns h).mp hhit
      simp [sectionGo, hhit, List.find?_cons, hdec]
    · have hdec : ¬ ∃ syn ∈ syns, SubstrP (lowerStr syn) (lowerStr h) :=
        fun hc => hhit ((synHit_iff syns h).mpr hc)
      simp [sectionGo, hhit, List.find?_cons, hdec, ih]

/-- C4: the section that receives a heading's span is the first section in
SECTIONS declaration order whose synonym list has a synonym occurring
case-insensitively inside the matched heading text; declaration order
alone breaks ties. -/
theorem C4_declaration_order_owner (h : Str) : sectionForHeading h = specOwner h :=
  sectionGo_eq_find h SECTIONS

/-! ## C5: the cuantias currency post-filter -/

/-- C5: locate_sections empties the cuantias content exactly when the
accumulated content contains neither the euro sign nor the word euros
case-insensitively, leaves it unchanged otherwise, and leaves every other
section untouched by the post-filter. -/
theorem C5_cuantias_filter (t : Str) :
    (contentOf ("cuantias".toList) (locate_sections t)
      = (if pyContains ("€".toList) (lowerStr (contentOf ("cuantias".toList) (locateAccum t))) = false ∧
            pyContains ("euros".toList) (lowerStr (contentOf ("cuantias".toList) (locateAccum t))) = false
         then []
         else contentOf ("cuantias".toList) (locateAccum t))) ∧
    (∀ k, k ≠ "cuantias".toList →
      contentOf k (locate_sections t) = contentOf k (locateAccum t)) := by
  constructor
  · rw [locate_sections_eq]
    split
    · exact contentOf_update_nil ..
    · rfl
  · intro k hk
    rw [locate_sections_eq]
    split
    · exact contentOf_update_other _ _ hk _ _
    · rfl

theorem C5_witness :
    ("plazo".toList ≠ "cuantias".toList) ∧
    contentOf ("plazo".toList) (locate_sections ("IMPORTE cosas".toList))
      = contentOf ("plazo".toList) (locateAccum ("IMPORTE cosas".toList)) :=
  ⟨by decide, (C5_cuantias_filter ("IMPORTE cosas".toList)).2 _ (by decide)⟩

/-! ## C6: hyphen handling when joining wrapped lines -/

/-- C6: on the soft-wrapped paragraph "exam-\nple" the normalizer removes
the trailing hyphen but still inserts a space when joining, producing
"exam ple" rather than the rejoined word "example" the claim describes. -/
theorem C6_hyphen_join_behavior :
    clean_paragraph ("exam-\nple".toList) = "exam ple".toList ∧
    ¬ clean_paragraph ("exam-\nple".toList) = "example".toList := by
  decide

/-! ## Lemmas about pyStrip -/

theorem pyStrip_eq_rdrop (s : Str) : pyStrip s = (s.dropWhile isWs).rdropWhile isWs := rfl

theorem pyStrip_mem {c : Char} {s : Str} (h : c ∈ pyStrip s) : c ∈ s := by
  rw [pyStrip_eq_rdrop] at h
  exact (List.dropWhile_suffix isWs).sublist.subset
    (( List.rdropWhile_prefix isWs (s.dropWhile isWs)).sublist.subset h)

theorem dropWhile_head?_ws (s : Str) (c : Char)
    (h : (s.dropWhile isWs).head? = some c) : isWs c = false := by
  induction s with
  | nil => cases h
  | cons a r ih =>
    rw [List.dropWhile_cons] at h
    by_cases hws : isWs a
    · rw [if_pos hws] at h
      exact ih h
    · rw [if_neg hws] at h
      cases h
      simpa using hws

theorem dropWhile_eq_self_head_ws {s : Str} (h : s.dropWhile isWs = s) {c : Char}
    (hc : s.head? = some c) : isWs c = false := by
  rw [← h] at hc
  exact dropWhile_head?_ws s c hc

theorem rdropWhile_last?_ws (x : Str) (c : Char)
    (h : (x.rdropWhile isWs).getLast? = some c) : isWs c = false := by
  have hne : x.rdropWhile isWs ≠ [] := by
    intro h2
    rw [h2] at h
    cases h
  have hlast := List.rdropWhile_last_not isWs x hne
  rw [List.getLast?_eq_getLast_of_ne_nil hne] at h
  cases h
  simpa using hlast

theorem pyStrip_noop (s : Str) (hh : ∀ c, s.head? = some c → isWs c = false)
    (hl : ∀ c, s.getLast? = some c → isWs c = false) : pyStrip s = s := by
  have h1 : s.dropWhile isWs = s := by
    cases s with
    | nil => rfl
    | cons a r => rw [List.dropWhile_cons, if_neg (by simp [hh a rfl])]
  rw [pyStrip_eq_rdrop, h1, List.rdropWhile_eq_self_iff]
  intro hne
  simp [hl _ (List.getLast?_eq_getLast_of_ne_nil hne)]

theorem pyStrip_eq_self_parts {s : Str} (h : pyStrip s = s) :
    s.dropWhile isWs = s ∧ s.rdropWhile isWs = s := by
  rw [pyStrip_eq_rdrop] at h
  have hp : (s.dropWhile isWs).rdropWhile isWs <+: s.dropWhile isWs :=
    List.rdropWhile_prefix isWs (s.dropWhile isWs)
  have hs : s.dropWhile isWs <:+ s := List.dropWhile_suffix isWs
  have hlen1 : s.length ≤ (s.dropWhile isWs).length := by
    have h1 : ((s.dropWhile isWs).rdropWhile isWs).length = s.length := congrArg List.length h
    have h2 := hp.length_le
    omega
  have hd : s.dropWhile isWs = s := hs.eq_of_length (Nat.le_antisymm hs.length_le hlen1)
  rw [hd] at h
  exact ⟨hd, h⟩

theorem pyStrip_head_ws {s : Str} (h : pyStrip s = s) {c : Char}
    (hc : s.head? = some c) : isWs c = false :=
  dropWhile_eq_self_head_ws (pyStrip_eq_self_parts h).1 hc

theorem pyStrip_last_ws {s : Str} (h : pyStrip s = s) {c : Char}
    (hc : s.getLast? = some c) : isWs c = false := by
  have h2 := (pyStrip_eq_self_parts h).2
  rw [← h2] at hc
  exact rdropWhile_last?_ws s c hc

theorem pyStrip_idem (s : Str) : pyStrip (pyStrip s) = pyStrip s := by
  apply pyStrip_noop
  · intro c hc
    rw [pyStrip_eq_rdrop] at hc
    obtain ⟨t, ht⟩ := List.rdropWhile_prefix isWs (s.dropWhile isWs)
    have hx : (s.dropWhile isWs).head? = some c := by
      rw [← ht]
      cases hrd : (s.dropWhile isWs).rdropWhile isWs with
      | nil => rw [hrd] at hc; cases hc
      | cons a r =>
        rw [hrd] at hc
        cases hc
        simp
    exact dropWhile_head?_ws s c hx
  · intro c hc
    rw [pyStrip_eq_rdrop] at hc
    exact rdropWhile_last?_ws _ c hc

theorem pyStrip_eq_nil_iff (s : Str) : pyStrip s = [] ↔ ∀ c ∈ s, isWs c := by
  rw [pyStrip_eq_rdrop, List.rdropWhile_eq_nil_iff]
  constructor
  · intro h c hc
    have hsplit : s.takeWhile isWs ++ s.dropWhile isWs = s :=
      List.takeWhile_append_dropWhile isWs s
    rw [← hsplit] at hc
    rcases List.mem_append.mp hc with h1 | h1
    · exact List.mem_takeWhile_imp h1
    · exact h c h1
  · intro h c hc
    exact h c ((List.dropWhile_suffix isWs).sublist.subset hc)

/-! ## Lemmas about splitting and joining -/

theorem splitOn1_ne_nil (sep : Char) (s : Str) : splitOn1 sep s ≠ [] := by
  cases s with
  | nil => simp [splitOn1]
  | cons c r =>
    by_cases h : c = sep
    · simp [splitOn1, h]
    · simp only [splitOn1, if_neg h]
      cases splitOn1 sep r with
      | nil => simp [consTok]
      | cons t ts => simp [consTok]

theorem pyJoin_consTok (sep : Str) (c : Char) (ts : List Str) (h : ts ≠ []) :
    pyJoin sep (consTok c ts) = c :: pyJoin sep ts := by
  cases ts with
  | nil => exact absurd rfl h
  | cons t ts' =>
    cases ts' with
    | nil => rfl
    | cons t2 ts'' => simp [consTok, pyJoin]

theorem pyJoin_splitOn1 (sep : Char) (s : Str) : pyJoin [sep] (splitOn1 sep s) = s := by
  induction s with
  | nil => rfl
  | cons c r ih =>
    by_cases h : c = sep
    · subst h
      simp only [splitOn1, if_pos rfl]
      cases hts : splitOn1 c r with
      | nil => exact absurd hts (splitOn1_ne_nil c r)
      | cons t ts' =>
        show pyJoin [c] ([] :: t :: ts') = c :: r
        rw [show pyJoin [c] ([] :: t :: ts') = [] ++ [c] ++ pyJoin [c] (t :: ts') from rfl]
        rw [← hts, ih]
        rfl
    · rw [splitOn1, if_neg h, pyJoin_consTok _ _ _ (splitOn1_ne_nil sep r), ih]

theorem splitOn1_of_not_mem (sep : Char) (q : Str) (h : sep ∉ q) : splitOn1 sep q = [q] := by
  induction q with
  | nil => rfl
  | cons c r ih =>
    have hc : ¬ c = sep := fun hcc => h (by simp [hcc])
    rw [splitOn1, if_neg hc, ih (fun hm => h (by simp [hm]))]
    rfl

theorem splitOn1_append (sep : Char) (a b : Str) (h : sep ∉ a) :
    splitOn1 sep (a ++ sep :: b) = a :: splitOn1 sep b := by
  induction a with
  | nil => simp [splitOn1]
  | cons c as ih =>
    have hc : ¬ c = sep := fun hcc => h (by simp [hcc])
    rw [List.cons_append, splitOn1, if_neg hc, ih (fun hm => h (by simp [hm]))]
    rfl

theorem splitOn1_sep_not_mem (sep : Char) (s : Str) : ∀ l ∈ splitOn1 sep s, sep ∉ l := by
  induction s with
  | nil =>
    intro l hl
    simp only [splitOn1, List.mem_singleton] at hl
    simp [hl]
  | cons c r ih =>
    intro l hl
    by_cases h : c = sep
    · rw [splitOn1, if_pos h] at hl
      rcases List.mem_cons.mp hl with h1 | h1
      · simp [h1]
      · exact ih l h1
    · rw [splitOn1, if_neg h] at hl
      cases hts : splitOn1 sep r with
      | nil => exact absurd hts (splitOn1_ne_nil sep r)
      | cons t ts' =>
        rw [hts, consTok] at hl
        rcases List.mem_cons.mp hl with h1 | h1
        · subst h1
          intro hm
          rcases List.mem_cons.mp hm with h2 | h2
          · exact h h2.symm
          · exact ih t (by rw [hts]; simp) h2
        · exact ih l (by rw [hts]; simp [h1])

/-! ### splitNl2 equations and interaction with joins -/

theorem splitNl2_cons_ne (c : Char) (r : Str) (h : ¬ c = '\n') :
    splitNl2 (c :: r) = consTok c (splitNl2 r) := by
  cases r with
  | nil => simp [splitNl2, h]
  | cons c2 r2 =>
    rw [splitNl2.eq_def]
    split
    · rename_i heq
      cases heq
    · rename_i heq
      rw [List.cons.injEq] at heq
      exact absurd heq.1 h
    · rename_i heq
      rw [List.cons.injEq] at heq
      rw [← heq.1, ← heq.2]

theorem splitNl2_of_not_mem (q : Str) (h : '\n' ∉ q) : splitNl2 q = [q] := by
  induction q with
  | nil => rfl
  | cons c r ih =>
    have hc : ¬ c = '\n' := fun hcc => h (by simp [hcc])
    rw [splitNl2_cons_ne c r hc, ih (fun hm => h (by simp [hm]))]
    rfl

theorem consTok_ne_nil (c : Char) (ts : List Str) : consTok c ts ≠ [] := by
  cases ts <;> simp [consTok]

theorem splitNl2_ne_nil (s : Str) : splitNl2 s ≠ [] := by
  rw [splitNl2.eq_def]
  split
  · simp
  · simp
  · exact consTok_ne_nil _ _

theorem splitNl2_append (q b : Str) (h : '\n' ∉ q) :
    splitNl2 (q ++ '\n' :: '\n' :: b) = q :: splitNl2 b := by
  induction q with
  | nil => rfl
  | cons c as ih =>
    have hc : ¬ c = '\n' := fun hcc => h (by simp [hcc])
    rw [List.cons_append, splitNl2_cons_ne c _ hc, ih (fun hm => h (by simp [hm]))]
    rfl

/-- The line list of a blank-line-joined paragraph list: each paragraph
followed by one empty line, except the last. -/
def blankSep : List Str → List Str
  | [] => []
  | [q] => [q]
  | q :: q2 :: qs => q :: [] :: blankSep (q2 :: qs)

theorem blankSep_mem {x : Str} {qs : List Str} (hx : x ∈ blankSep qs) : x ∈ qs ∨ x = [] := by
  induction qs with
  | nil => simp [blankSep] at hx
  | cons q qs' ih =>
    cases qs' with
    | nil =>
      simp only [blankSep, List.mem_singleton] at hx
      simp [hx]
    | cons q2 qs'' =>
      rw [blankSep] at hx
      rcases List.mem_cons.mp hx with h1 | h1
      · simp [h1]
      · rcases List.mem_cons.mp h1 with h2 | h2
        · simp [h2]
        · rcases ih h2 with h3 | h3
          · exact Or.inl (by simp [h3])
          · exact Or.inr h3

theorem pyJoin_cons_cons (sep x y : Str) (ys : List Str) :
    pyJoin sep (x :: y :: ys) = x ++ sep ++ pyJoin sep (y :: ys) := rfl

theorem splitNl_pyJoin2 (qs : List Str) (hqs : qs ≠ []) (hnl : ∀ q ∈ qs, '\n' ∉ q) :
    splitNl (pyJoin ['\n', '\n'] qs) = blankSep qs := by
  induction qs with
  | nil => exact absurd rfl hqs
  | cons q qs' ih =>
    cases qs' with
    | nil => exact splitOn1_of_not_mem '\n' q (hnl q (by simp))
    | cons q2 qs'' =>
      have hj : pyJoin ['\n', '\n'] (q :: q2 :: qs'')
          = q ++ '\n' :: '\n' :: pyJoin ['\n', '\n'] (q2 :: qs'') := by
        rw [pyJoin_cons_cons, List.append_assoc]
        rfl
      rw [hj]
      show splitOn1 '\n' (q ++ '\n' :: ('\n' :: pyJoin ['\n', '\n'] (q2 :: qs'')))
        = blankSep (q :: q2 :: qs'')
      rw [splitOn1_append '\n' q _ (hnl q (by simp))]
      rw [show splitOn1 '\n' ('\n' :: pyJoin ['\n', '\n'] (q2 :: qs''))
            = [] :: splitOn1 '\n' (pyJoin ['\n', '\n'] (q2 :: qs'')) from by
        simp [splitOn1]]
      rw [show splitOn1 '\n' (pyJoin ['\n', '\n'] (q2 :: qs'')) = splitNl (pyJoin ['\n', '\n'] (q2 :: qs'')) from rfl]
      rw [ih (by simp) (fun y hy => hnl y (by simp [hy]))]
      rfl

theorem pyJoin_blankSep (qs : List Str) :
    pyJoin ['\n'] (blankSep qs) = pyJoin ['\n', '\n'] qs := by
  induction qs with
  | nil => rfl
  | cons q qs' ih =>
    cases qs' with
    | nil => rfl
    | cons q2 qs'' =>
      cases hbt : blankSep (q2 :: qs'') with
      | nil =>
        exact absurd hbt (by cases qs'' <;> simp [blankSep])
      | cons t ts =>
        rw [show blankSep (q :: q2 :: qs'') = q :: [] :: blankSep (q2 :: qs'') from rfl, hbt,
          pyJoin_cons_cons, pyJoin_cons_cons ['\n'] [] t ts, ← hbt, ih, pyJoin_cons_cons]
        simp [List.append_assoc]

theorem splitNl2_pyJoin2 (qs : List Str) (hqs : qs ≠ []) (hnl : ∀ q ∈ qs, '\n' ∉ q) :
    splitNl2 (pyJoin ['\n', '\n'] qs) = qs := by
  induction qs with
  | nil => exact absurd rfl hqs
  | cons q qs' ih =>
    cases qs' with
    | nil => exact splitNl2_of_not_mem q (hnl q (by simp))
    | cons q2 qs'' =>
      have hj : pyJoin ['\n', '\n'] (q :: q2 :: qs'')
          = q ++ '\n' :: '\n' :: pyJoin ['\n', '\n'] (q2 :: qs'') := by
        rw [pyJoin_cons_cons, List.append_assoc]
        rfl
      rw [hj, splitNl2_append q _ (hnl q (by simp)),
        ih (by simp) (fun y hy => hnl y (by simp [hy]))]

theorem pyJoin_ne_nil (sep : Str) (x : Str) (xs : List Str) (hx : x ≠ []) :
    pyJoin sep (x :: xs) ≠ [] := by
  cases xs with
  | nil => simpa [pyJoin]
  | cons y ys =>
    rw [pyJoin_cons_cons]
    intro hc
    have hlen := congrArg List.length hc
    simp only [List.length_append, List.length_nil] at hlen
    have hx0 : x.length = 0 := by omega
    exact hx (List.length_eq_zero.mp hx0)

theorem pyJoin_head? (sep : Str) (x : Str) (xs : List Str) (hx : x ≠ []) :
    (pyJoin sep (x :: xs)).head? = x.head? := by
  cases xs with
  | nil => rfl
  | cons y ys =>
    obtain ⟨c, r, rfl⟩ : ∃ c r, x = c :: r := by
      cases x with
      | nil => exact absurd rfl hx
      | cons c r => exact ⟨c, r, rfl⟩
    rw [pyJoin_cons_cons]
    simp

theorem pyJoin_getLast? (sep : Str) (qs : List Str) (hqs : qs ≠ [])
    (h : ∀ x ∈ qs, x ≠ []) :
    ∃ x ∈ qs, (pyJoin sep qs).getLast? = x.getLast? := by
  induction qs with
  | nil => exact absurd rfl hqs
  | cons q qs' ih =>
    cases qs' with
    | nil => exact ⟨q, by simp, rfl⟩
    | cons q2 qs'' =>
      obtain ⟨x, hxmem, hxeq⟩ := ih (by simp) (fun y hy => h y (by simp [hy]))
      refine ⟨x, by simp [List.mem_cons.mp hxmem], ?_⟩
      rw [pyJoin_cons_cons,
        List.getLast?_append_of_ne_nil _ (pyJoin_ne_nil sep q2 qs'' (h q2 (by simp)))]
      exact hxeq

theorem pyJoin_mem (sep : Str) (qs : List Str) (c : Char) (hc : c ∈ pyJoin sep qs) :
    c ∈ sep ∨ ∃ q ∈ qs, c ∈ q := by
  induction qs with
  | nil => simp [pyJoin] at hc
  | cons q qs' ih =>
    cases qs' with
    | nil => exact Or.inr ⟨q, by simp, hc⟩
    | cons q2 qs'' =>
      rw [pyJoin_cons_cons] at hc
      rcases List.mem_append.mp hc with h1 | h1
      · rcases List.mem_append.mp h1 with h2 | h2
        · exact Or.inr ⟨q, by simp, h2⟩
        · exact Or.inl h2
      · rcases ih h1 with h2 | ⟨y, hy, hcy⟩
        · exact Or.inl h2
        · exact Or.inr ⟨y, by simp [List.mem_cons.mp hy], hcy⟩

theorem pyJoin_cons_flatten (c : Char) (x : Str) (xs : List Str) :
    pyJoin [c] (x :: xs) = x ++ (xs.map (fun y => c :: y)).flatten := by
  induction xs generalizing x with
  | nil => simp [pyJoin]
  | cons y ys ih =>
    rw [pyJoin_cons_cons, ih y]
    simp [List.append_assoc]

/-! ## Characterization of clean_paragraph -/

/-- The lines clean_paragraph keeps: stripped, with blank lines removed. -/
def procLines (ls : List Str) : List Str :=
  (ls.map pyStrip).filter (fun l => ! l.isEmpty)

theorem procLines_cons_blank {l : Str} (ls : List Str) (h : pyStrip l = []) :
    procLines (l :: ls) = procLines ls := by
  simp [procLines, List.filter_cons, h]

theorem procLines_cons_keep {l : Str} (ls : List Str) (h : ¬ pyStrip l = []) :
    procLines (l :: ls) = pyStrip l :: procLines ls := by
  have : (pyStrip l).isEmpty = false := by
    cases hb : pyStrip l with
    | nil => exact absurd hb h
    | cons a r => rfl
  simp [procLines, List.filter_cons, this]

theorem cleanGo_nonempty (ls : List Str)
    (hls : ∀ l ∈ ls, ¬ (pyStrip l).getLast? = some '-')
    (acc : Str) (hacc : acc ≠ []) :
    cleanGo ls acc = acc ++ ((procLines ls).map (fun y => ' ' :: y)).flatten := by
  induction ls generalizing acc with
  | nil => simp [cleanGo, procLines]
  | cons l rest ih =>
    by_cases hl1 : pyStrip l = []
    · rw [show cleanGo (l :: rest) acc = cleanGo rest acc from by simp [cleanGo, hl1],
        ih (fun y hy => hls y (by simp [hy])) acc hacc, procLines_cons_blank rest hl1]
    · have hdash := hls l (by simp)
      rw [show cleanGo (l :: rest) acc = cleanGo rest (acc ++ ' ' :: pyStrip l) from by
          simp [cleanGo, hl1, hacc, hdash],
        ih (fun y hy => hls y (by simp [hy])) _ (by simp),
        procLines_cons_keep rest hl1]
      simp [List.append_assoc]

theorem cleanGo_nil_acc (ls : List Str)
    (hls : ∀ l ∈ ls, ¬ (pyStrip l).getLast? = some '-') :
    cleanGo ls [] = pyJoin [' '] (procLines ls) := by
  induction ls with
  | nil => rfl
  | cons l rest ih =>
    by_cases hl1 : pyStrip l = []
    · rw [show cleanGo (l :: rest) [] = cleanGo rest [] from by simp [cleanGo, hl1],
        ih (fun y hy => hls y (by simp [hy])), procLines_cons_blank rest hl1]
    · have hdash := hls l (by simp)
      rw [show cleanGo (l :: rest) [] = cleanGo rest (pyStrip l) from by
          simp [cleanGo, hl1, hdash],
        cleanGo_nonempty rest (fun y hy => hls y (by simp [hy])) (pyStrip l) hl1,
        procLines_cons_keep rest hl1, pyJoin_cons_flatten]

theorem clean_paragraph_eq (p : Str)
    (hls : ∀ l ∈ splitNl p, ¬ (pyStrip l).getLast? = some '-') :
    clean_paragraph p = pyJoin [' '] (procLines (splitNl p)) :=
  cleanGo_nil_acc (splitNl p) hls

theorem procLines_mem {x : Str} {ls : List Str} (hx : x ∈ procLines ls) :
    ∃ l ∈ ls, x = pyStrip l ∧ x ≠ [] := by
  simp only [procLines, List.mem_filter, List.mem_map] at hx
  obtain ⟨⟨l, hl, hxl⟩, hne⟩ := hx
  refine ⟨l, hl, hxl.symm, ?_⟩
  intro hxe
  rw [hxe] at hne
  simp at hne

theorem procLines_ne_nil {p : Str} (hne : ¬ pyStrip p = []) :
    procLines (splitNl p) ≠ [] := by
  intro hS
  apply hne
  rw [pyStrip_eq_nil_iff]
  intro c hc
  rw [← pyJoin_splitOn1 '\n' p] at hc
  rcases pyJoin_mem _ _ _ hc with h1 | ⟨l, hl, hcl⟩
  · simp only [List.mem_singleton] at h1
    simp [h1, isWs]
  · have hstrip : pyStrip l = [] := by
      by_contra hlne
      have : pyStrip l ∈ procLines (splitNl p) := by
        simp only [procLines, List.mem_filter, List.mem_map]
        constructor
        · exact ⟨l, hl, rfl⟩
        · cases hb : pyStrip l with
          | nil => exact absurd hb hlne
          | cons a r => rfl
      rw [hS] at this
      cases this
    exact (pyStrip_eq_nil_iff l).mp hstrip c hcl

/-- The cleaned paragraph of a non-blank paragraph with no soft-wrap
hyphens: non-empty, stripped, single-line, and not ending in a hyphen. -/
theorem clean_paragraph_facts (p : Str)
    (hls : ∀ l ∈ splitNl p, ¬ (pyStrip l).getLast? = some '-')
    (hne : ¬ pyStrip p = []) :
    clean_paragraph p ≠ [] ∧ pyStrip (clean_paragraph p) = clean_paragraph p ∧
    '\n' ∉ clean_paragraph p ∧ ¬ (clean_paragraph p).getLast? = some '-' := by
  have hq := clean_paragraph_eq p hls
  have hSel : ∀ x ∈ procLines (splitNl p),
      x ≠ [] ∧ pyStrip x = x ∧ '\n' ∉ x ∧ ¬ x.getLast? = some '-' := by
    intro x hx
    obtain ⟨l, hl, hxl, hxne⟩ := procLines_mem hx
    refine ⟨hxne, by rw [hxl]; exact pyStrip_idem l, ?_, by rw [hxl]; exact hls l hl⟩
    intro hnl
    exact splitOn1_sep_not_mem '\n' p l hl (by rw [hxl] at hnl; exact pyStrip_mem hnl)
  cases hS : procLines (splitNl p) with
  | nil => exact absurd hS (procLines_ne_nil hne)
  | cons s0 S' =>
    rw [hS] at hq hSel
    have hs0 := hSel s0 (by simp)
    refine ⟨?_, ?_, ?_, ?_⟩
    · rw [hq]
      exact pyJoin_ne_nil _ _ _ hs0.1
    · rw [hq]
      apply pyStrip_noop
      · intro c hc
        rw [pyJoin_head? _ _ _ hs0.1] at hc
        exact pyStrip_head_ws hs0.2.1 hc
      · intro c hc
        obtain ⟨x, hxm, hxeq⟩ :=
          pyJoin_getLast? [' '] (s0 :: S') (by simp) (fun y hy => (hSel y hy).1)
        rw [hxeq] at hc
        exact pyStrip_last_ws (hSel x hxm).2.1 hc
    · intro hmem
      rw [hq] at hmem
      rcases pyJoin_mem _ _ _ hmem with h1 | ⟨y, hy, hcy⟩
      · simp at h1
      · exact (hSel y hy).2.2.1 hcy
    · intro hlast
      rw [hq] at hlast
      obtain ⟨x, hxm, hxeq⟩ :=
        pyJoin_getLast? [' '] (s0 :: S') (by simp) (fun y hy => (hSel y hy).1)
      rw [hxeq] at hlast
      exact (hSel x hxm).2.2.2 hlast

/-- clean_paragraph is the identity on a non-empty stripped single-line
paragraph not ending in a hyphen. -/
theorem clean_paragraph_single (q : Str) (hnl : '\n' ∉ q) (hst : pyStrip q = q)
    (hq : q ≠ []) (hdash : ¬ q.getLast? = some '-') : clean_paragraph q = q := by
  have hlines : splitNl q = [q] := splitOn1_of_not_mem '\n' q hnl
  have hls : ∀ l ∈ splitNl q, ¬ (pyStrip l).getLast? = some '-' := by
    rw [hlines]
    intro l hl
    rw [List.mem_singleton] at hl
    subst hl
    rw [hst]
    exact hdash
  rw [clean_paragraph_eq q hls, hlines, procLines_cons_keep [] (by rw [hst]; exact hq)]
  rw [hst]
  rfl

/-! ## C7: idempotence of the normalizer -/

theorem remove_signature_noop (t : Str) (ha : (splitNl t).all keepLine = true) :
    remove_signature_lines t = t := by
  unfold remove_signature_lines
  rw [List.filter_eq_self.mpr (List.all_eq_true.mp ha)]
  exact pyJoin_splitOn1 '\n' t

theorem pyStrip_pyJoin (sep : Str) (qs : List Str) (hqs : qs ≠ [])
    (h : ∀ x ∈ qs, x ≠ [] ∧ pyStrip x = x) :
    pyStrip (pyJoin sep qs) = pyJoin sep qs := by
  cases qs with
  | nil => exact absurd rfl hqs
  | cons q0 qs' =>
    apply pyStrip_noop
    · intro c hcc
      rw [pyJoin_head? _ _ _ (h q0 (by simp)).1] at hcc
      exact pyStrip_head_ws (h q0 (by simp)).2 hcc
    · intro c hcc
      obtain ⟨x, hxm, hxeq⟩ :=
        pyJoin_getLast? sep (q0 :: qs') (by simp) (fun y hy => (h y hy).1)
      rw [hxeq] at hcc
      exact pyStrip_last_ws (h x hxm).2 hcc

/-- C7 (amended): the normalizer is idempotent on text with no
boilerplate-marker lines and no soft-wrapped line-end hyphens, provided the
paragraph joining does not itself create a boilerplate marker inside a
cleaned paragraph. -/
theorem C7_normalize_idempotent (t : Str)
    (ha : (splitNl t).all keepLine = true)
    (hb : ∀ p ∈ splitNl2 t, ∀ l ∈ splitNl p, ¬ (pyStrip l).getLast? = some '-')
    (hc : ∀ q ∈ cleanedParagraphs t, keepLine q = true) :
    normalize (normalize t) = normalize t := by
  have hrm : remove_signature_lines t = t := remove_signature_noop t ha
  have hqs_eq : cleanedParagraphs t
      = (List.filter (fun p => ! (pyStrip p).isEmpty) (splitNl2 t)).map clean_paragraph := by
    unfold cleanedParagraphs paragraphsOf
    rw [hrm]
  have hfacts : ∀ q ∈ cleanedParagraphs t,
      q ≠ [] ∧ pyStrip q = q ∧ '\n' ∉ q ∧ ¬ q.getLast? = some '-' := by
    intro q hq
    rw [hqs_eq] at hq
    obtain ⟨p, hp, rfl⟩ := List.mem_map.mp hq
    have hpmem := (List.mem_filter.mp hp).1
    have hpne : ¬ pyStrip p = [] := by
      have hflt := (List.mem_filter.mp hp).2
      intro he
      rw [he] at hflt
      simp at hflt
    exact clean_paragraph_facts p (hb p hpmem) hpne
  cases hqs0 : cleanedParagraphs t with
  | nil =>
    have hnt : normalize t = [] := by
      unfold normalize
      rw [hqs0]
      rfl
    rw [hnt]
    decide
  | cons q0 qs' =>
    have hfacts' : ∀ q ∈ q0 :: qs',
        q ≠ [] ∧ pyStrip q = q ∧ '\n' ∉ q ∧ ¬ q.getLast? = some '-' :=
      fun q hq => hfacts q (by rw [hqs0]; exact hq)
    have hc' : ∀ q ∈ q0 :: qs', keepLine q = true :=
      fun q hq => hc q (by rw [hqs0]; exact hq)
    have hqne : (q0 :: qs' : List Str) ≠ [] := by simp
    have helnl : ∀ x ∈ q0 :: qs', '\n' ∉ x := fun x hx => (hfacts' x hx).2.2.1
    have hu : normalize t = pyJoin ['\n', '\n'] (q0 :: qs') := by
      unfold normalize
      rw [hqs0]
      exact pyStrip_pyJoin _ _ hqne
        (fun x hx => ⟨(hfacts' x hx).1, (hfacts' x hx).2.1⟩)
    rw [hu]
    have hrm2 : remove_signature_lines (pyJoin ['\n', '\n'] (q0 :: qs'))
        = pyJoin ['\n', '\n'] (q0 :: qs') := by
      have hkeepall : ∀ x ∈ blankSep (q0 :: qs'), keepLine x = true := by
        intro x hx
        rcases blankSep_mem hx with h1 | h1
        · exact hc' x h1
        · rw [h1]
          decide
      unfold remove_signature_lines
      rw [show splitNl (pyJoin ['\n', '\n'] (q0 :: qs')) = blankSep (q0 :: qs') from
          splitNl_pyJoin2 _ hqne helnl,
        List.filter_eq_self.mpr hkeepall, pyJoin_blankSep]
    have hfil : paragraphsOf (pyJoin ['\n', '\n'] (q0 :: qs')) = q0 :: qs' := by
      unfold paragraphsOf
      rw [hrm2, splitNl2_pyJoin2 _ hqne helnl]
      apply List.filter_eq_self.mpr
      intro x hx
      have hxf := hfacts' x hx
      rw [hxf.2.1]
      cases hxval : x with
      | nil => exact absurd hxval hxf.1
      | cons a r => rfl
    have hmapc : ∀ q ∈ q0 :: qs', clean_paragraph q = q := by
      intro q hq
      have hf := hfacts' q hq
      exact clean_paragraph_single q hf.2.2.1 hf.2.1 hf.1 hf.2.2.2
    show normalize _ = _
    unfold normalize cleanedParagraphs
    rw [hfil]
    have hmap : List.map clean_paragraph (q0 :: qs') = List.map id (q0 :: qs') :=
      List.map_congr_left hmapc
    rw [hmap, List.map_id]
    exact pyStrip_pyJoin _ _ hqne
      (fun x hx => ⟨(hfacts' x hx).1, (hfacts' x hx).2.1⟩)

/-- C7 counterexample: the text "FECHA\n:" has no boilerplate-marker line
and no line-end hyphen, yet normalizing its normalized form does not return
it unchanged: joining the two lines creates the marker "FECHA :", which the
second pass removes entirely. -/
theorem C7_counterexample :
    ((splitNl ("FECHA\n:".toList)).all keepLine = true) ∧
    (∀ p ∈ splitNl2 ("FECHA\n:".toList), ∀ l ∈ splitNl p,
      ¬ (pyStrip l).getLast? = some '-') ∧
    ¬ normalize (normalize ("FECHA\n:".toList)) = normalize ("FECHA\n:".toList) := by
  refine ⟨by decide, by decide, by decide⟩

theorem C7_witness :
    ((splitNl ("hola\nmundo\n\nadios".toList)).all keepLine = true) ∧
    normalize (normalize ("hola\nmundo\n\nadios".toList))
      = normalize ("hola\nmundo\n\nadios".toList) :=
  ⟨by decide, C7_normalize_idempotent ("hola\nmundo\n\nadios".toList)
    (by decide) (by decide) (by decide)⟩

end NLPA
